import Mathlib

/-!
Verification of the matching-core specification of the qaultra trading
engine.  The repository ships only a Python usage example of the engine
(src/examples/python_trading.py); the matching core itself (order book,
matching algorithm, bounded queue, engine lifecycle) is described by the
specification, so the definitions below are modelled from the spec.
Prices and quantities use integer-scaled exact arithmetic, as the spec
mandates ("never floating point for comparisons"); a price of 10.00 is
represented as 1000 with a scale of 100.
-/

set_option maxHeartbeats 1000000

/-- Modelled from the spec: order side (buy/sell). -/
inductive Side where
  | buy : Side
  | sell : Side
deriving DecidableEq

/-- Modelled from the spec: an Order has an identifier, instrument code,
side, integer-scaled price, original quantity, remaining quantity and a
submission timestamp used as the tie-break for price-time priority.
Status is tracked implicitly by the remaining quantity. -/
structure Order where
  id : Nat
  code : String
  side : Side
  price : Int
  quantity : Nat
  remaining : Nat
  timestamp : Nat
deriving DecidableEq

/-- Modelled from the spec: a Trade references the resting (maker) order id
and the incoming (taker) order id, the instrument code, the execution price
(the resting order price), the execution quantity (min of the two remaining
quantities at match time) and a timestamp. -/
structure Trade where
  makerId : Nat
  takerId : Nat
  code : String
  price : Int
  quantity : Nat
  timestamp : Nat
deriving DecidableEq

/-- Modelled from the spec: marketability test.  For a buy the best ask
price must be at most the buy price; for a sell the best bid price must be
at least the sell price. -/
def marketable (incoming resting : Order) : Bool :=
  match incoming.side with
  | Side.buy => decide (resting.price ≤ incoming.price)
  | Side.sell => decide (incoming.price ≤ resting.price)

/-- Modelled from the spec: the continuous-matching loop of
`OrderBook.insert`.  While the incoming order has remaining quantity > 0
and the best opposite resting order is marketable, pop it, trade
min of the two remaining quantities at the resting order price, decrement
both remaining quantities, drop the resting order when fully filled and
otherwise leave it (partially filled) at the front and stop.  Returns the
emitted trades, the updated incoming order and the updated opposite side. -/
def matchAgainst (incoming : Order) : List Order → List Trade × Order × List Order
  | [] => ([], incoming, [])
  | r :: rest =>
    if 0 < incoming.remaining ∧ marketable incoming r = true then
      let q := min incoming.remaining r.remaining
      let t : Trade := ⟨r.id, incoming.id, incoming.code, r.price, q, incoming.timestamp⟩
      let inc2 : Order := { incoming with remaining := incoming.remaining - q }
      if r.remaining - q = 0 then
        let res := matchAgainst inc2 rest
        (t :: res.1, res.2.1, res.2.2)
      else
        ([t], inc2, { r with remaining := r.remaining - q } :: rest)
    else
      ([], incoming, r :: rest)

/-- Modelled from the spec: insertion of a resting order into one side of
the book, keeping the side ordered; `better o b` decides whether `o` has
strictly better price priority than `b`, so among equal prices the new
order goes after the existing ones (time priority). -/
def insertSide (better : Order → Order → Bool) (o : Order) : List Order → List Order
  | [] => [o]
  | b :: bs => if better o b then o :: b :: bs else b :: insertSide better o bs

/-- Modelled from the spec: bids are ordered by price descending, time
ascending. -/
def insertBid (o : Order) (l : List Order) : List Order :=
  insertSide (fun a b => decide (b.price < a.price)) o l

/-- Modelled from the spec: asks are ordered by price ascending, time
ascending. -/
def insertAsk (o : Order) (l : List Order) : List Order :=
  insertSide (fun a b => decide (a.price < b.price)) o l

/-- Modelled from the spec: a per-symbol Order Book holds the resting bids
and asks. -/
structure OrderBook where
  bids : List Order
  asks : List Order
deriving DecidableEq

/-- The empty order book. -/
def emptyBook : OrderBook := ⟨[], []⟩

/-- Modelled from the spec: `insert` matches the incoming order against the
opposite side immediately and, if remaining quantity is left, rests it at
its price/time slot; a fully filled incoming order is discarded. -/
def OrderBook.insert (book : OrderBook) (o : Order) : List Trade × OrderBook :=
  match o.side with
  | Side.buy =>
    let res := matchAgainst o book.asks
    (res.1, ⟨if 0 < res.2.1.remaining then insertBid res.2.1 book.bids else book.bids, res.2.2⟩)
  | Side.sell =>
    let res := matchAgainst o book.bids
    (res.1, ⟨res.2.2, if 0 < res.2.1.remaining then insertAsk res.2.1 book.asks else book.asks⟩)

/-- Processing a sequence of orders against one book, collecting all
trades in emission order. -/
def processOrders (book : OrderBook) : List Order → List Trade × OrderBook
  | [] => ([], book)
  | o :: os =>
    let res := book.insert o
    let res2 := processOrders res.2 os
    (res.1 ++ res2.1, res2.2)

/-- Modelled from the spec: aggregate resting quantity per distinct price
level; the side being ordered, equal prices are adjacent. -/
def aggregateLevels : List Order → List (Int × Nat)
  | [] => []
  | o :: rest =>
    match aggregateLevels rest with
    | [] => [(o.price, o.remaining)]
    | (p, q) :: lvls =>
      if o.price = p then (p, o.remaining + q) :: lvls
      else (o.price, o.remaining) :: (p, q) :: lvls

/-- Modelled from the spec: `depth(levels)` returns the top N aggregated
(price, quantity) levels per side, best price first. -/
def OrderBook.depth (book : OrderBook) (n : Nat) : List (Int × Nat) × List (Int × Nat) :=
  ((aggregateLevels book.bids).take n, (aggregateLevels book.asks).take n)

/-- Modelled from the spec: the bounded FIFO order/trade queue; capacity is
fixed at construction. -/
structure BoundedQueue (α : Type) where
  capacity : Nat
  items : List α
deriving DecidableEq

/-- Modelled from the spec: `enqueue` appends at the back, failing (none)
when the bounded capacity is reached. -/
def BoundedQueue.enqueue (q : BoundedQueue α) (x : α) : Option (BoundedQueue α) :=
  if q.items.length < q.capacity then some ⟨q.capacity, q.items ++ [x]⟩ else none

/-- Modelled from the spec: `dequeue` returns the next item in FIFO order,
or none (Empty) when no item is available. -/
def BoundedQueue.dequeue (q : BoundedQueue α) : Option (α × BoundedQueue α) :=
  match q.items with
  | [] => none
  | x :: rest => some (x, ⟨q.capacity, rest⟩)

/-- Enqueue a whole list of items in order, failing if any enqueue hits
capacity. -/
def enqueueAll (q : BoundedQueue α) : List α → Option (BoundedQueue α)
  | [] => some q
  | x :: xs =>
    match q.enqueue x with
    | none => none
    | some q2 => enqueueAll q2 xs

/-- Dequeue repeatedly until the queue reports Empty, collecting the items
in the order they were returned. -/
def drain (q : BoundedQueue α) : List α :=
  match h : q.dequeue with
  | none => []
  | some (x, q2) => x :: drain q2
termination_by q.items.length
decreasing_by
  simp only [BoundedQueue.dequeue] at h
  cases hq : q.items with
  | nil => rw [hq] at h; exact absurd h (by simp)
  | cons y ys =>
    rw [hq] at h
    simp only [Option.some.injEq, Prod.mk.injEq] at h
    rw [← h.2]
    simp

/-- Modelled from the spec: engine lifecycle states. -/
inductive EngineState where
  | stopped : EngineState
  | running : EngineState
  | draining : EngineState
deriving DecidableEq

/-- Modelled from the spec: the error taxonomy of the matching core. -/
inductive EngineError where
  | QueueFull : EngineError
  | EngineNotRunning : EngineError
  | OrderNotFound : EngineError
  | InvalidOrder : EngineError
  | AlreadyRunning : EngineError
  | NotRunning : EngineError
deriving DecidableEq

/-- Modelled from the spec: the Matching Engine owns the lifecycle state,
the bounded ingress queue and one Order Book per traded symbol. -/
structure Engine where
  state : EngineState
  ingress : BoundedQueue Order
  books : List (String × OrderBook)
deriving DecidableEq

/-- Modelled from the spec: order validation; an order with non-positive
quantity is an `InvalidOrder`, rejected before entering the book. -/
def valid_order (o : Order) : Bool := decide (0 < o.quantity)

/-- Modelled from the spec: `submit_order` fails with `EngineNotRunning`
if the state is not Running; validation errors are returned synchronously
and the order never enters the book; otherwise the order is enqueued to
the ingress queue, failing with `QueueFull` at capacity. -/
def submit_order (e : Engine) (o : Order) : Except EngineError Engine :=
  if e.state ≠ EngineState.running then Except.error EngineError.EngineNotRunning
  else if valid_order o = false then Except.error EngineError.InvalidOrder
  else
    match e.ingress.enqueue o with
    | none => Except.error EngineError.QueueFull
    | some q2 => Except.ok { e with ingress := q2 }

/-- Look up the book for a symbol; a symbol with no book yet is the empty
book (lazily created on first order). -/
def lookupBook (books : List (String × OrderBook)) (sym : String) : OrderBook :=
  match books with
  | [] => emptyBook
  | (s, b) :: rest => if s = sym then b else lookupBook rest sym

/-- Replace (or lazily create) the book stored for a symbol. -/
def updateBook (books : List (String × OrderBook)) (sym : String) (b : OrderBook) :
    List (String × OrderBook) :=
  match books with
  | [] => [(sym, b)]
  | (s, b0) :: rest =>
    if s = sym then (s, b) :: rest else (s, b0) :: updateBook rest sym b

/-- Modelled from the spec: a worker routes an order to the Order Book of
its instrument code and calls `insert`. -/
def route (books : List (String × OrderBook)) (o : Order) :
    List Trade × List (String × OrderBook) :=
  let res := (lookupBook books o.code).insert o
  (res.1, updateBook books o.code res.2)

/-- Route a sequence of orders, collecting all trades. -/
def processRouted (books : List (String × OrderBook)) :
    List Order → List Trade × List (String × OrderBook)
  | [] => ([], books)
  | o :: os =>
    let res := route books o
    let res2 := processRouted res.2 os
    (res.1 ++ res2.1, res2.2)

/-- Modelled from the spec: `get_market_depth(symbol, levels)` returns the
depth snapshot of the symbol book. -/
def get_market_depth (e : Engine) (sym : String) (n : Nat) :
    List (Int × Nat) × List (Int × Nat) :=
  (lookupBook e.books sym).depth n

/-- The side of the book an incoming order is matched against. -/
def oppositeSide (b : OrderBook) (o : Order) : List Order :=
  match o.side with
  | Side.buy => b.asks
  | Side.sell => b.bids

/-- Modelled from the spec: one matching step.  While the incoming order
has remaining quantity > 0 and the best-priority opposite resting order is
marketable, a Trade is emitted at the resting order price for the min of
the two remaining quantities, both remaining quantities are decremented,
and the resting order is removed from the book exactly when fully filled. -/
inductive MatchStep : Order × List Order → Trade → Order × List Order → Prop where
  | exec (o r : Order) (rest : List Order)
      (hrem : 0 < o.remaining) (hmkt : marketable o r = true) :
      MatchStep (o, r :: rest)
        ⟨r.id, o.id, o.code, r.price, min o.remaining r.remaining, o.timestamp⟩
        ({ o with remaining := o.remaining - min o.remaining r.remaining },
         if r.remaining - min o.remaining r.remaining = 0 then rest
         else { r with remaining := r.remaining - min o.remaining r.remaining } :: rest)

/-- Iterated matching steps with the emitted trade trace. -/
inductive MatchTrace : Order × List Order → List Trade → Order × List Order → Prop where
  | done (s : Order × List Order) : MatchTrace s [] s
  | step (s1 : Order × List Order) (t : Trade) (s2 : Order × List Order)
      (ts : List Trade) (s3 : Order × List Order)
      (h1 : MatchStep s1 t s2) (h2 : MatchTrace s2 ts s3) :
      MatchTrace s1 (t :: ts) s3

/-- A matching state from which no further matching step applies: the
incoming order is exhausted, or the opposite side is empty, or its best
price is no longer marketable. -/
def MatchDone (s : Order × List Order) : Prop := ∀ t s2, ¬ MatchStep s t s2

/-- Bids ordered by price descending (spec ordering, price component). -/
def bidsOrdered (l : List Order) : Prop := l.Pairwise (fun a b => b.price ≤ a.price)

/-- Asks ordered by price ascending (spec ordering, price component). -/
def asksOrdered (l : List Order) : Prop := l.Pairwise (fun a b => a.price ≤ b.price)

instance (l : List Order) : Decidable (bidsOrdered l) := by
  unfold bidsOrdered; infer_instance

instance (l : List Order) : Decidable (asksOrdered l) := by
  unfold asksOrdered; infer_instance

/-- A small concrete book used to instantiate depth-snapshot statements. -/
def demoBook : OrderBook :=
  ⟨[⟨1, "A", Side.buy, 100, 5, 5, 1⟩], [⟨2, "A", Side.sell, 110, 7, 7, 2⟩]⟩

/-- A small concrete engine holding `demoBook` for symbol A. -/
def demoEngine : Engine := ⟨EngineState.running, ⟨0, []⟩, [("A", demoBook)]⟩

/-- Modelled from the spec: the no-cross invariant, no resting bid price
at or above any resting ask price. -/
def noCross (b : OrderBook) : Prop := ∀ x ∈ b.bids, ∀ y ∈ b.asks, x.price < y.price

/-- Modelled from the spec: every resting order has remaining quantity > 0. -/
def allPositive (b : OrderBook) : Prop :=
  (∀ x ∈ b.bids, 0 < x.remaining) ∧ (∀ y ∈ b.asks, 0 < y.remaining)

/-- Well-formedness of a book: both sides price-ordered, crossed-free, and
all resting quantities positive. -/
def BookWF (b : OrderBook) : Prop :=
  bidsOrdered b.bids ∧ asksOrdered b.asks ∧ noCross b ∧ allPositive b

/-- Modelled from the spec: full bid priority, price descending with the
earlier submission timestamp first among equal prices. -/
def bidPriority (a b : Order) : Prop :=
  b.price < a.price ∨ (a.price = b.price ∧ a.timestamp ≤ b.timestamp)

/-- Modelled from the spec: full ask priority, price ascending with the
earlier submission timestamp first among equal prices. -/
def askPriority (a b : Order) : Prop :=
  a.price < b.price ∨ (a.price = b.price ∧ a.timestamp ≤ b.timestamp)

instance (a b : Order) : Decidable (bidPriority a b) := by
  unfold bidPriority; infer_instance

instance (a b : Order) : Decidable (askPriority a b) := by
  unfold askPriority; infer_instance

/-- Total executed quantity of a trade list. -/
def sumQty : List Trade → Nat
  | [] => 0
  | t :: ts => t.quantity + sumQty ts

/-- Total remaining quantity of the resting orders carrying a given id. -/
def remSumId (i : Nat) : List Order → Nat
  | [] => 0
  | r :: rest => (if r.id = i then r.remaining else 0) + remSumId i rest

/-- Total executed quantity of the trades in which a given id is the maker. -/
def makerQty (i : Nat) : List Trade → Nat
  | [] => 0
  | t :: ts => (if t.makerId = i then t.quantity else 0) + makerQty i ts

/-- Total executed quantity of the trades in which a given id is the taker. -/
def takerQty (i : Nat) : List Trade → Nat
  | [] => 0
  | t :: ts => (if t.takerId = i then t.quantity else 0) + takerQty i ts

/-- Total executed quantity of the trades in which a given order id
participates, on either side. -/
def tradeQtyFor (i : Nat) (ts : List Trade) : Nat := makerQty i ts + takerQty i ts

/-- Total submitted remaining quantity of the orders carrying a given id. -/
def qtySumId (i : Nat) : List Order → Nat
  | [] => 0
  | o :: rest => (if o.id = i then o.remaining else 0) + qtySumId i rest

/-- Aggregate resting quantity at one price on one side of the book. -/
def levelQty (p : Int) : List Order → Nat
  | [] => 0
  | o :: rest => (if o.price = p then o.remaining else 0) + levelQty p rest

/-! Lemmas about the matching loop. -/

theorem matchAgainst_incoming_fields (o : Order) (l : List Order) :
    (matchAgainst o l).2.1.id = o.id ∧ (matchAgainst o l).2.1.code = o.code ∧
    (matchAgainst o l).2.1.side = o.side ∧ (matchAgainst o l).2.1.price = o.price ∧
    (matchAgainst o l).2.1.quantity = o.quantity ∧
    (matchAgainst o l).2.1.timestamp = o.timestamp ∧
    (matchAgainst o l).2.1.remaining ≤ o.remaining := by
  induction l generalizing o with
  | nil => simp [matchAgainst]
  | cons r rest ih =>
    simp only [matchAgainst]
    split
    · split
      · refine ⟨(ih _).1, (ih _).2.1, (ih _).2.2.1, (ih _).2.2.2.1,
          (ih _).2.2.2.2.1, (ih _).2.2.2.2.2.1, ?_⟩
        exact le_trans (ih _).2.2.2.2.2.2 (Nat.sub_le _ _)
      · exact ⟨rfl, rfl, rfl, rfl, rfl, rfl, Nat.sub_le _ _⟩
    · exact ⟨rfl, rfl, rfl, rfl, rfl, rfl, le_refl _⟩

theorem matchAgainst_stops (o : Order) (l : List Order) (r : Order)
    (hrem : 0 < (matchAgainst o l).2.1.remaining)
    (hhead : (matchAgainst o l).2.2.head? = some r) :
    marketable o r = false := by
  induction l generalizing o with
  | nil => simp [matchAgainst] at hhead
  | cons r0 rest ih =>
    simp only [matchAgainst] at hrem hhead
    by_cases hg : 0 < o.remaining ∧ marketable o r0 = true
    · rw [if_pos hg] at hrem hhead
      by_cases hf : r0.remaining - min o.remaining r0.remaining = 0
      · rw [if_pos hf] at hrem hhead
        have := ih { o with remaining := o.remaining - min o.remaining r0.remaining } hrem hhead
        exact this
      · rw [if_neg hf] at hrem hhead
        simp only at hrem
        omega
    · rw [if_neg hg] at hrem hhead
      simp only at hrem hhead
      simp only [List.head?_cons, Option.some.injEq] at hhead
      rw [← hhead]
      cases hmkt : marketable o r0 with
      | false => rfl
      | true => exact absurd ⟨hrem, hmkt⟩ hg

theorem matchAgainst_side_prices (o : Order) (l : List Order) :
    ∀ x ∈ (matchAgainst o l).2.2, ∃ y ∈ l, x.price = y.price := by
  induction l generalizing o with
  | nil => simp [matchAgainst]
  | cons r rest ih =>
    simp only [matchAgainst]
    split
    · split
      · intro x hx
        obtain ⟨y, hy, hxy⟩ := ih _ x hx
        exact ⟨y, List.mem_cons_of_mem _ hy, hxy⟩
      · intro x hx
        rcases List.mem_cons.mp hx with h | h
        · exact ⟨r, List.mem_cons_self _ _, by rw [h]⟩
        · exact ⟨x, List.mem_cons_of_mem _ h, rfl⟩
    · intro x hx
      exact ⟨x, hx, rfl⟩

theorem matchAgainst_side_pairwise (S : Int → Int → Prop) (o : Order) (l : List Order)
    (hl : l.Pairwise (fun a b => S a.price b.price)) :
    (matchAgainst o l).2.2.Pairwise (fun a b => S a.price b.price) := by
  induction l generalizing o with
  | nil => simpa [matchAgainst] using hl
  | cons r rest ih =>
    rw [List.pairwise_cons] at hl
    simp only [matchAgainst]
    split
    · split
      · exact ih _ hl.2
      · rw [List.pairwise_cons]
        exact ⟨fun b hb => hl.1 b hb, hl.2⟩
    · rw [List.pairwise_cons]
      exact ⟨hl.1, hl.2⟩

theorem matchAgainst_side_pos (o : Order) (l : List Order)
    (hl : ∀ x ∈ l, 0 < x.remaining) :
    ∀ x ∈ (matchAgainst o l).2.2, 0 < x.remaining := by
  induction l generalizing o with
  | nil => simpa [matchAgainst]
  | cons r rest ih =>
    simp only [matchAgainst]
    split
    · split
      · exact ih _ (fun x hx => hl x (List.mem_cons_of_mem _ hx))
      · next hfull =>
        intro x hx
        rcases List.mem_cons.mp hx with h | h
        · rw [h]; simpa using Nat.pos_of_ne_zero hfull
        · exact hl x (List.mem_cons_of_mem _ h)
    · exact hl

theorem matchAgainst_taker_sum (o : Order) (l : List Order) :
    (matchAgainst o l).2.1.remaining + sumQty (matchAgainst o l).1 = o.remaining := by
  induction l generalizing o with
  | nil => simp [matchAgainst, sumQty]
  | cons r rest ih =>
    simp only [matchAgainst]
    split
    · next hg =>
      split
      · simp only [sumQty]
        have h2 := ih { o with remaining := o.remaining - min o.remaining r.remaining }
        simp only at h2
        omega
      · simp only [sumQty]
        omega
    · simp [sumQty]

theorem matchAgainst_maker_ids (o : Order) (l : List Order) :
    (matchAgainst o l).1.map (fun t => t.makerId)
      = (l.take (matchAgainst o l).1.length).map (fun x => x.id) := by
  induction l generalizing o with
  | nil => simp [matchAgainst]
  | cons r rest ih =>
    simp only [matchAgainst]
    split
    · split
      · simp only [List.map_cons, List.length_cons, List.take_succ_cons]
        rw [ih]
      · simp
    · simp

theorem matchAgainst_taker_ids (o : Order) (l : List Order) :
    ∀ t ∈ (matchAgainst o l).1, t.takerId = o.id ∧ t.timestamp = o.timestamp := by
  induction l generalizing o with
  | nil => simp [matchAgainst]
  | cons r rest ih =>
    simp only [matchAgainst]
    split
    · split
      · intro t ht
        rcases List.mem_cons.mp ht with h | h
        · rw [h]; exact ⟨rfl, rfl⟩
        · exact ih { o with remaining := o.remaining - min o.remaining r.remaining } t h
      · intro t ht
        rcases List.mem_cons.mp ht with h | h
        · rw [h]; exact ⟨rfl, rfl⟩
        · exact absurd h (List.not_mem_nil t)
    · intro t ht
      exact absurd ht (List.not_mem_nil t)

theorem matchAgainst_maker_conserve (i : Nat) (o : Order) (l : List Order) :
    remSumId i (matchAgainst o l).2.2 + makerQty i (matchAgainst o l).1 = remSumId i l := by
  induction l generalizing o with
  | nil => simp [matchAgainst, remSumId, makerQty]
  | cons r rest ih =>
    simp only [matchAgainst]
    split
    · next hg =>
      split
      · next hfull =>
        simp only [makerQty, remSumId]
        have h2 := ih { o with remaining := o.remaining - min o.remaining r.remaining }
        by_cases hid : r.id = i
        · rw [if_pos hid, if_pos hid]
          omega
        · rw [if_neg hid, if_neg hid]
          omega
      · next hfull =>
        simp only [makerQty, remSumId]
        by_cases hid : r.id = i
        · rw [if_pos hid, if_pos hid, if_pos hid]
          omega
        · rw [if_neg hid, if_neg hid, if_neg hid]
          omega
    · simp [remSumId, makerQty]

theorem matchAgainst_trade_bounds (o : Order) (l : List Order) :
    ∀ t ∈ (matchAgainst o l).1, t.quantity ≤ o.remaining ∧
      ∃ r ∈ l, t.makerId = r.id ∧ t.price = r.price ∧ t.quantity ≤ r.remaining := by
  induction l generalizing o with
  | nil => simp [matchAgainst]
  | cons r rest ih =>
    simp only [matchAgainst]
    split
    · split
      · intro t ht
        rcases List.mem_cons.mp ht with h | h
        · refine ⟨by rw [h]; exact Nat.min_le_left _ _,
            r, List.mem_cons_self _ _, by rw [h], by rw [h], by rw [h]; exact Nat.min_le_right _ _⟩
        · obtain ⟨h1, rr, hrr, hmk, hpr, hq⟩ := ih _ t h
          refine ⟨le_trans h1 (Nat.sub_le _ _), rr, List.mem_cons_of_mem _ hrr, hmk, hpr, hq⟩
      · intro t ht
        rcases List.mem_cons.mp ht with h | h
        · refine ⟨by rw [h]; exact Nat.min_le_left _ _,
            r, List.mem_cons_self _ _, by rw [h], by rw [h], by rw [h]; exact Nat.min_le_right _ _⟩
        · exact absurd h (List.not_mem_nil t)
    · intro t ht
      exact absurd ht (List.not_mem_nil t)

theorem marketable_congr (a b r : Order) (hs : a.side = b.side) (hp : a.price = b.price) :
    marketable a r = marketable b r := by
  unfold marketable
  rw [hs, hp]

theorem matchStep_inv (s : Order × List Order) (t : Trade) (s2 : Order × List Order)
    (h : MatchStep s t s2) :
    0 < s.1.remaining ∧ ∃ r rest, s.2 = r :: rest ∧ marketable s.1 r = true := by
  cases h with
  | exec o r rest hrem hmkt => exact ⟨hrem, r, rest, rfl, hmkt⟩

theorem matchAgainst_done (o : Order) (l : List Order) :
    MatchDone ((matchAgainst o l).2.1, (matchAgainst o l).2.2) := by
  intro t s2 h
  obtain ⟨hrem, r, rest, heq, hmkt⟩ := matchStep_inv _ _ _ h
  have hstop := matchAgainst_stops o l r hrem (by rw [heq]; rfl)
  have hfields := matchAgainst_incoming_fields o l
  have hcongr : marketable (matchAgainst o l).2.1 r = marketable o r :=
    marketable_congr _ _ _ hfields.2.2.1 hfields.2.2.2.1
  rw [hcongr, hstop] at hmkt
  exact Bool.false_ne_true hmkt

theorem matchAgainst_trace (o : Order) (l : List Order) :
    MatchTrace (o, l) (matchAgainst o l).1 ((matchAgainst o l).2.1, (matchAgainst o l).2.2) := by
  induction l generalizing o with
  | nil => exact MatchTrace.done _
  | cons r rest ih =>
    by_cases hg : 0 < o.remaining ∧ marketable o r = true
    · by_cases hfull : r.remaining - min o.remaining r.remaining = 0
      · have step := MatchStep.exec o r rest hg.1 hg.2
        rw [if_pos hfull] at step
        have trace := ih { o with remaining := o.remaining - min o.remaining r.remaining }
        have comb := MatchTrace.step _ _ _ _ _ step trace
        simp only [matchAgainst, if_pos hg, if_pos hfull]
        exact comb
      · have step := MatchStep.exec o r rest hg.1 hg.2
        rw [if_neg hfull] at step
        have comb := MatchTrace.step _ _ _ _ _ step (MatchTrace.done _)
        simp only [matchAgainst, if_pos hg, if_neg hfull]
        exact comb
    · simp only [matchAgainst, if_neg hg]
      exact MatchTrace.done _

theorem insert_trades (b : OrderBook) (o : Order) :
    (b.insert o).1 = (matchAgainst o (oppositeSide b o)).1 := by
  cases ho : o.side <;> simp [OrderBook.insert, oppositeSide, ho]

theorem insert_new_opposite (b : OrderBook) (o : Order) :
    oppositeSide (b.insert o).2 o = (matchAgainst o (oppositeSide b o)).2.2 := by
  cases ho : o.side <;> simp [OrderBook.insert, oppositeSide, ho]

/-- C1: inserting an incoming order matches it step by step against the
best-priority resting order of the opposite side, each step firing only
while the incoming remaining quantity is positive and the best opposite
price is marketable; every emitted Trade carries the resting (maker) order
price and the min of the two remaining quantities, both remaining
quantities are decremented by it, and a fully filled resting order is
removed from the book; the loop stops exactly when no further step
applies. -/
theorem c1_insert_refines_matching_steps (b : OrderBook) (o : Order) :
    MatchTrace (o, oppositeSide b o) (b.insert o).1
      ((matchAgainst o (oppositeSide b o)).2.1, oppositeSide (b.insert o).2 o) ∧
    MatchDone ((matchAgainst o (oppositeSide b o)).2.1, oppositeSide (b.insert o).2 o) := by
  rw [insert_trades, insert_new_opposite]
  exact ⟨matchAgainst_trace o _, matchAgainst_done o _⟩

theorem mem_insertSide (better : Order → Order → Bool) (o : Order) (l : List Order) :
    ∀ x, x ∈ insertSide better o l ↔ x = o ∨ x ∈ l := by
  induction l with
  | nil => simp [insertSide]
  | cons b bs ih =>
    intro x
    simp only [insertSide]
    split
    · simp only [List.mem_cons]
    · simp only [List.mem_cons, ih x]
      tauto

theorem insertSide_pairwise (R : Order → Order → Prop) (better : Order → Order → Bool)
    (o : Order) (l : List Order)
    (htrans : ∀ a b c, R a b → R b c → R a c)
    (h1 : ∀ a b, better a b = false → R b a)
    (h2 : ∀ a b, better a b = true → R a b)
    (hl : l.Pairwise R) : (insertSide better o l).Pairwise R := by
  induction l with
  | nil => simp [insertSide]
  | cons b bs ih =>
    rw [List.pairwise_cons] at hl
    simp only [insertSide]
    split
    · next hbet =>
      rw [List.pairwise_cons]
      refine ⟨?_, List.pairwise_cons.mpr hl⟩
      intro x hx
      rcases List.mem_cons.mp hx with h | h
      · rw [h]; exact h2 _ _ hbet
      · exact htrans _ _ _ (h2 _ _ hbet) (hl.1 x h)
    · next hbet =>
      rw [List.pairwise_cons]
      refine ⟨?_, ih hl.2⟩
      intro x hx
      rcases (mem_insertSide better o bs x).mp hx with h | h
      · rw [h]; exact h1 _ _ (Bool.not_eq_true _ ▸ (by simpa using hbet))
      · exact hl.1 x h

theorem insertBid_sorted (o : Order) (l : List Order) (hl : bidsOrdered l) :
    bidsOrdered (insertBid o l) := by
  refine insertSide_pairwise _ _ o l ?_ ?_ ?_ hl
  · intro a b c hab hbc; exact le_trans hbc hab
  · intro a b hab
    simp only [decide_eq_false_iff_not, not_lt] at hab
    exact hab
  · intro a b hab
    simp only [decide_eq_true_eq] at hab
    exact le_of_lt hab

theorem insertAsk_sorted (o : Order) (l : List Order) (hl : asksOrdered l) :
    asksOrdered (insertAsk o l) := by
  refine insertSide_pairwise _ _ o l ?_ ?_ ?_ hl
  · intro a b c hab hbc; exact le_trans hab hbc
  · intro a b hab
    simp only [decide_eq_false_iff_not, not_lt] at hab
    exact hab
  · intro a b hab
    simp only [decide_eq_true_eq] at hab
    exact le_of_lt hab

theorem insert_WF (b : OrderBook) (o : Order) (h : BookWF b) : BookWF (b.insert o).2 := by
  obtain ⟨hbs, has, hnc, hpos⟩ := h
  obtain ⟨hposb, hposa⟩ := hpos
  cases ho : o.side with
  | buy =>
    have hins : (b.insert o).2 = ⟨if 0 < (matchAgainst o b.asks).2.1.remaining
        then insertBid (matchAgainst o b.asks).2.1 b.bids else b.bids,
        (matchAgainst o b.asks).2.2⟩ := by
      simp [OrderBook.insert, ho]
    have has2 : asksOrdered (matchAgainst o b.asks).2.2 :=
      matchAgainst_side_pairwise (fun p q => p ≤ q) o b.asks has
    have hpx : o.price = (matchAgainst o b.asks).2.1.price :=
      ((matchAgainst_incoming_fields o b.asks).2.2.2.1).symm
    rw [hins]
    refine ⟨?_, has2, ?_, ?_, ?_⟩
    · by_cases hrem : 0 < (matchAgainst o b.asks).2.1.remaining
      · rw [if_pos hrem]; exact insertBid_sorted _ _ hbs
      · rw [if_neg hrem]; exact hbs
    · intro x hx y hy
      simp only at hx hy
      obtain ⟨y0, hy0mem, hyy0⟩ := matchAgainst_side_prices o b.asks y hy
      by_cases hrem : 0 < (matchAgainst o b.asks).2.1.remaining
      · rw [if_pos hrem] at hx
        rcases (mem_insertSide _ _ b.bids x).mp hx with hxo | hxold
        · cases hasks2 : (matchAgainst o b.asks).2.2 with
          | nil => rw [hasks2] at hy; exact absurd hy (List.not_mem_nil y)
          | cons a0 tl =>
            have hstop := matchAgainst_stops o b.asks a0 hrem (by rw [hasks2]; rfl)
            have hlt : o.price < a0.price := by
              unfold marketable at hstop
              rw [ho] at hstop
              simp only [decide_eq_false_iff_not, not_le] at hstop
              exact hstop
            rw [hasks2] at hy has2
            have hxp : x.price = o.price := by rw [hxo, ← hpx]
            rcases List.mem_cons.mp hy with hya | hyt
            · rw [hxp, hya]; exact hlt
            · have := List.rel_of_pairwise_cons has2 hyt
              rw [hxp]
              exact lt_of_lt_of_le hlt this
        · rw [hyy0]
          exact hnc x hxold y0 hy0mem
      · rw [if_neg hrem] at hx
        rw [hyy0]
        exact hnc x hx y0 hy0mem
    · intro x hx
      simp only at hx
      by_cases hrem : 0 < (matchAgainst o b.asks).2.1.remaining
      · rw [if_pos hrem] at hx
        rcases (mem_insertSide _ _ b.bids x).mp hx with hxo | hxold
        · rw [hxo]; exact hrem
        · exact hposb x hxold
      · rw [if_neg hrem] at hx
        exact hposb x hx
    · intro y hy
      simp only at hy
      exact matchAgainst_side_pos o b.asks hposa y hy
  | sell =>
    have hins : (b.insert o).2 = ⟨(matchAgainst o b.bids).2.2,
        if 0 < (matchAgainst o b.bids).2.1.remaining
        then insertAsk (matchAgainst o b.bids).2.1 b.asks else b.asks⟩ := by
      simp [OrderBook.insert, ho]
    have hbs2 : bidsOrdered (matchAgainst o b.bids).2.2 :=
      matchAgainst_side_pairwise (fun p q => q ≤ p) o b.bids hbs
    have hpx : o.price = (matchAgainst o b.bids).2.1.price :=
      ((matchAgainst_incoming_fields o b.bids).2.2.2.1).symm
    rw [hins]
    refine ⟨hbs2, ?_, ?_, ?_, ?_⟩
    · by_cases hrem : 0 < (matchAgainst o b.bids).2.1.remaining
      · rw [if_pos hrem]; exact insertAsk_sorted _ _ has
      · rw [if_neg hrem]; exact has
    · intro x hx y hy
      simp only at hx hy
      obtain ⟨x0, hx0mem, hxx0⟩ := matchAgainst_side_prices o b.bids x hx
      by_cases hrem : 0 < (matchAgainst o b.bids).2.1.remaining
      · rw [if_pos hrem] at hy
        rcases (mem_insertSide _ _ b.asks y).mp hy with hyo | hyold
        · cases hbids2 : (matchAgainst o b.bids).2.2 with
          | nil => rw [hbids2] at hx; exact absurd hx (List.not_mem_nil x)
          | cons b0 tl =>
            have hstop := matchAgainst_stops o b.bids b0 hrem (by rw [hbids2]; rfl)
            have hlt : b0.price < o.price := by
              unfold marketable at hstop
              rw [ho] at hstop
              simp only [decide_eq_false_iff_not, not_le] at hstop
              exact hstop
            rw [hbids2] at hx hbs2
            have hyp : y.price = o.price := by rw [hyo, ← hpx]
            rcases List.mem_cons.mp hx with hxb | hxt
            · rw [hyp, hxb]; exact hlt
            · have := List.rel_of_pairwise_cons hbs2 hxt
              rw [hyp]
              exact lt_of_le_of_lt this hlt
        · rw [hxx0]
          exact hnc x0 hx0mem y hyold
      · rw [if_neg hrem] at hy
        rw [hxx0]
        exact hnc x0 hx0mem y hy
    · intro x hx
      simp only at hx
      exact matchAgainst_side_pos o b.bids hposb x hx
    · intro y hy
      simp only at hy
      by_cases hrem : 0 < (matchAgainst o b.bids).2.1.remaining
      · rw [if_pos hrem] at hy
        rcases (mem_insertSide _ _ b.asks y).mp hy with hyo | hyold
        · rw [hyo]; exact hrem
        · exact hposa y hyold
      · rw [if_neg hrem] at hy
        exact hposa y hy

theorem emptyBook_WF : BookWF emptyBook := by
  refine ⟨List.Pairwise.nil, List.Pairwise.nil, ?_, ?_, ?_⟩ <;> intro x hx <;>
    exact absurd hx (List.not_mem_nil x)

theorem processOrders_WF (b : OrderBook) (os : List Order) (h : BookWF b) :
    BookWF (processOrders b os).2 := by
  induction os generalizing b with
  | nil => exact h
  | cons o os ih =>
    simp only [processOrders]
    exact ih _ (insert_WF b o h)

/-- C2: for every sequence of orders submitted against one symbol book,
after processing completes (hence after each matching pass, applied to the
corresponding prefix) the book is crossed-free, no resting bid price at or
above any resting ask price, and every resting order has remaining
quantity > 0. -/
theorem c2_no_cross_and_positive (os : List Order) :
    noCross (processOrders emptyBook os).2 ∧
    (∀ x ∈ (processOrders emptyBook os).2.bids, 0 < x.remaining) ∧
    (∀ y ∈ (processOrders emptyBook os).2.asks, 0 < y.remaining) := by
  have h := processOrders_WF emptyBook os emptyBook_WF
  exact ⟨h.2.2.1, h.2.2.2.1, h.2.2.2.2⟩

theorem makerQty_append (i : Nat) (ts ts2 : List Trade) :
    makerQty i (ts ++ ts2) = makerQty i ts + makerQty i ts2 := by
  induction ts with
  | nil => simp [makerQty]
  | cons t ts ih =>
    simp only [List.cons_append, makerQty, List.append_eq] at ih ⊢
    omega

theorem takerQty_append (i : Nat) (ts ts2 : List Trade) :
    takerQty i (ts ++ ts2) = takerQty i ts + takerQty i ts2 := by
  induction ts with
  | nil => simp [takerQty]
  | cons t ts ih =>
    simp only [List.cons_append, takerQty, List.append_eq] at ih ⊢
    omega

theorem tradeQtyFor_append (i : Nat) (ts ts2 : List Trade) :
    tradeQtyFor i (ts ++ ts2) = tradeQtyFor i ts + tradeQtyFor i ts2 := by
  simp only [tradeQtyFor, makerQty_append, takerQty_append]
  omega

theorem remSumId_append (i : Nat) (l l2 : List Order) :
    remSumId i (l ++ l2) = remSumId i l + remSumId i l2 := by
  induction l with
  | nil => simp [remSumId]
  | cons r l ih =>
    simp only [List.cons_append, remSumId, List.append_eq] at ih ⊢
    omega

theorem takerQty_of_const (i j : Nat) (ts : List Trade)
    (h : ∀ t ∈ ts, t.takerId = j) :
    takerQty i ts = if j = i then sumQty ts else 0 := by
  induction ts with
  | nil => simp [takerQty, sumQty]
  | cons t ts ih =>
    have ht := h t (List.mem_cons_self _ _)
    have hrest := ih (fun t2 h2 => h t2 (List.mem_cons_of_mem _ h2))
    simp only [takerQty, sumQty, ht, hrest]
    by_cases hj : j = i
    · rw [if_pos hj, if_pos hj, if_pos hj]
    · rw [if_neg hj, if_neg hj, if_neg hj]

theorem remSumId_insertSide (i : Nat) (better : Order → Order → Bool) (o : Order)
    (l : List Order) :
    remSumId i (insertSide better o l) = (if o.id = i then o.remaining else 0) + remSumId i l := by
  induction l with
  | nil => simp [insertSide, remSumId]
  | cons b bs ih =>
    simp only [insertSide]
    split
    · simp only [remSumId]
    · simp only [remSumId, ih]
      omega

theorem insert_conserve (i : Nat) (b : OrderBook) (o : Order) :
    remSumId i ((b.insert o).2.bids ++ (b.insert o).2.asks) + tradeQtyFor i (b.insert o).1
      = remSumId i (b.bids ++ b.asks) + (if o.id = i then o.remaining else 0) := by
  cases ho : o.side with
  | buy =>
    have hmk := matchAgainst_maker_conserve i o b.asks
    have hts := matchAgainst_taker_sum o b.asks
    have hid : (matchAgainst o b.asks).2.1.id = o.id :=
      (matchAgainst_incoming_fields o b.asks).1
    have htk := takerQty_of_const i o.id (matchAgainst o b.asks).1
      (fun t ht => (matchAgainst_taker_ids o b.asks t ht).1)
    simp only [OrderBook.insert, ho, tradeQtyFor, remSumId_append]
    by_cases hrem : 0 < (matchAgainst o b.asks).2.1.remaining
    · rw [if_pos hrem]
      simp only [insertBid]
      rw [remSumId_insertSide, hid]
      by_cases hio : o.id = i
      · rw [if_pos hio] at htk ⊢
        rw [if_pos hio]
        omega
      · rw [if_neg hio] at htk ⊢
        rw [if_neg hio]
        omega
    · rw [if_neg hrem]
      have hz : (matchAgainst o b.asks).2.1.remaining = 0 := by omega
      by_cases hio : o.id = i
      · rw [if_pos hio] at htk ⊢
        omega
      · rw [if_neg hio] at htk ⊢
        omega
  | sell =>
    have hmk := matchAgainst_maker_conserve i o b.bids
    have hts := matchAgainst_taker_sum o b.bids
    have hid : (matchAgainst o b.bids).2.1.id = o.id :=
      (matchAgainst_incoming_fields o b.bids).1
    have htk := takerQty_of_const i o.id (matchAgainst o b.bids).1
      (fun t ht => (matchAgainst_taker_ids o b.bids t ht).1)
    simp only [OrderBook.insert, ho, tradeQtyFor, remSumId_append]
    by_cases hrem : 0 < (matchAgainst o b.bids).2.1.remaining
    · rw [if_pos hrem]
      simp only [insertAsk]
      rw [remSumId_insertSide, hid]
      by_cases hio : o.id = i
      · rw [if_pos hio] at htk ⊢
        rw [if_pos hio]
        omega
      · rw [if_neg hio] at htk ⊢
        rw [if_neg hio]
        omega
    · rw [if_neg hrem]
      have hz : (matchAgainst o b.bids).2.1.remaining = 0 := by omega
      by_cases hio : o.id = i
      · rw [if_pos hio] at htk ⊢
        omega
      · rw [if_neg hio] at htk ⊢
        omega

theorem processOrders_conserve (i : Nat) (b : OrderBook) (os : List Order) :
    remSumId i ((processOrders b os).2.bids ++ (processOrders b os).2.asks)
      + tradeQtyFor i (processOrders b os).1
      = remSumId i (b.bids ++ b.asks) + qtySumId i os := by
  induction os generalizing b with
  | nil => simp [processOrders, qtySumId, tradeQtyFor, makerQty, takerQty]
  | cons o os ih =>
    simp only [processOrders, qtySumId, tradeQtyFor_append]
    have h1 := insert_conserve i b o
    have h2 := ih (b.insert o).2
    omega

theorem qtySumId_zero (j : Nat) (os : List Order) (h : ∀ x ∈ os, x.id ≠ j) :
    qtySumId j os = 0 := by
  induction os with
  | nil => rfl
  | cons x rest ih =>
    simp only [qtySumId]
    rw [if_neg (h x (List.mem_cons_self _ _)), ih (fun y hy => h y (List.mem_cons_of_mem _ hy))]

theorem qtySumId_of_nodup (os : List Order) (o : Order)
    (hnd : (os.map (fun x => x.id)).Nodup) (ho : o ∈ os) :
    qtySumId o.id os = o.remaining := by
  induction os with
  | nil => exact absurd ho (List.not_mem_nil o)
  | cons x rest ih =>
    rw [List.map_cons, List.nodup_cons] at hnd
    rcases List.mem_cons.mp ho with h | h
    · rw [← h] at hnd ⊢
      simp only [qtySumId, if_pos rfl]
      rw [qtySumId_zero o.id rest (fun y hy hyid => hnd.1 (hyid ▸ List.mem_map_of_mem _ hy))]
      simp
    · have hx : x.id ≠ o.id := fun heq => hnd.1 (heq ▸ List.mem_map_of_mem _ h)
      simp only [qtySumId]
      rw [if_neg hx, ih hnd.2 h]
      omega

/-- C3: quantity conservation.  Every trade emitted by a matching pass has
execution quantity at most the pre-trade remaining quantity of the
incoming (taker) order and of the resting (maker) order it references;
and over a whole processing run with distinct order ids, the total
executed quantity an order participates in never exceeds its original
quantity. -/
theorem c3_quantity_conservation :
    (∀ (o : Order) (l : List Order), ∀ t ∈ (matchAgainst o l).1,
      t.quantity ≤ o.remaining ∧ ∃ r ∈ l, t.makerId = r.id ∧ t.quantity ≤ r.remaining) ∧
    (∀ (os : List Order) (o : Order), (os.map (fun x => x.id)).Nodup → o ∈ os →
      o.remaining ≤ o.quantity →
      tradeQtyFor o.id (processOrders emptyBook os).1 ≤ o.quantity) := by
  constructor
  · intro o l t ht
    obtain ⟨h1, r, hr, hmk, _, hq⟩ := matchAgainst_trade_bounds o l t ht
    exact ⟨h1, r, hr, hmk, hq⟩
  · intro os o hnd ho hq
    have hc := processOrders_conserve o.id emptyBook os
    have hz : remSumId o.id (emptyBook.bids ++ emptyBook.asks) = 0 := rfl
    have hs := qtySumId_of_nodup os o hnd ho
    omega

theorem c3_quantity_conservation_witness :
    ((⟨1, 2, "X", 1000, 50, 2⟩ : Trade) ∈
      (matchAgainst (⟨2, "X", Side.sell, 950, 80, 80, 2⟩ : Order)
        [⟨1, "X", Side.buy, 1000, 50, 50, 1⟩]).1 ∧
     (⟨1, 2, "X", 1000, 50, 2⟩ : Trade).quantity ≤
       (⟨2, "X", Side.sell, 950, 80, 80, 2⟩ : Order).remaining ∧
     ∃ r ∈ [(⟨1, "X", Side.buy, 1000, 50, 50, 1⟩ : Order)],
       (⟨1, 2, "X", 1000, 50, 2⟩ : Trade).makerId = r.id ∧
       (⟨1, 2, "X", 1000, 50, 2⟩ : Trade).quantity ≤ r.remaining) ∧
    (([(⟨1, "X", Side.buy, 1000, 50, 50, 1⟩ : Order),
       ⟨2, "X", Side.sell, 950, 80, 80, 2⟩].map (fun x => x.id)).Nodup ∧
     tradeQtyFor 1 (processOrders emptyBook
       [⟨1, "X", Side.buy, 1000, 50, 50, 1⟩, ⟨2, "X", Side.sell, 950, 80, 80, 2⟩]).1 ≤ 50) := by
  constructor
  · refine ⟨by decide, ?_⟩
    exact c3_quantity_conservation.1 (⟨2, "X", Side.sell, 950, 80, 80, 2⟩ : Order)
      [⟨1, "X", Side.buy, 1000, 50, 50, 1⟩] (⟨1, 2, "X", 1000, 50, 2⟩ : Trade) (by decide)
  · refine ⟨by decide, ?_⟩
    exact c3_quantity_conservation.2
      [⟨1, "X", Side.buy, 1000, 50, 50, 1⟩, ⟨2, "X", Side.sell, 950, 80, 80, 2⟩]
      (⟨1, "X", Side.buy, 1000, 50, 50, 1⟩ : Order) (by decide) (by decide) (by decide)

/-- C5: starting from an empty book, submitting buy 50@10.00 (scaled 1000)
and then sell 80@9.50 (scaled 950) yields exactly one trade of quantity 50
at price 10.00, and the book afterwards holds exactly one resting sell
order of remaining quantity 30 at price 9.50 and no resting bids. -/
theorem c5_scenario_partial_fill :
    processOrders emptyBook
      [⟨1, "X", Side.buy, 1000, 50, 50, 1⟩, ⟨2, "X", Side.sell, 950, 80, 80, 2⟩]
      = ([⟨1, 2, "X", 1000, 50, 2⟩],
         ⟨[], [⟨2, "X", Side.sell, 950, 80, 30, 2⟩]⟩) := by
  decide

theorem matchAgainst_len_le (o : Order) (l : List Order) :
    (matchAgainst o l).1.length ≤ l.length := by
  have h := congrArg List.length (matchAgainst_maker_ids o l)
  simp only [List.length_map, List.length_take] at h
  omega

theorem matchAgainst_maker_at (o : Order) (l : List Order) (k : Nat)
    (hk : k < (matchAgainst o l).1.length) :
    ((matchAgainst o l).1.get ⟨k, hk⟩).makerId
      = (l.get ⟨k, lt_of_lt_of_le hk (matchAgainst_len_le o l)⟩).id := by
  have h := congrArg (fun lst => lst[k]?) (matchAgainst_maker_ids o l)
  simp only [List.getElem?_map, List.getElem?_take] at h
  rw [if_pos hk] at h
  rw [List.getElem?_eq_getElem hk,
    List.getElem?_eq_getElem (lt_of_lt_of_le hk (matchAgainst_len_le o l))] at h
  simp only [Option.map_some', Option.some.injEq] at h
  simpa [List.get_eq_getElem] using h

/-- C4: price-time priority.  In a side ordered by the spec priority
(price priority with earlier timestamp first among equal prices, either
the ask or the bid ordering) holding two resting orders at the same price
with distinct timestamps and distinct ids, whenever a matching pass of an
incoming opposite-side order fills the later-submitted one, it has already
filled the earlier-submitted one in a strictly earlier trade. -/
theorem c4_price_time_priority (o : Order) (l : List Order)
    (hord : l.Pairwise askPriority ∨ l.Pairwise bidPriority)
    (hnd : (l.map (fun x => x.id)).Nodup)
    (i j : Nat) (hi : i < l.length) (hj : j < l.length)
    (hprice : (l.get ⟨i, hi⟩).price = (l.get ⟨j, hj⟩).price)
    (htime : (l.get ⟨i, hi⟩).timestamp < (l.get ⟨j, hj⟩).timestamp)
    (hmatched : ∃ t ∈ (matchAgainst o l).1, t.makerId = (l.get ⟨j, hj⟩).id) :
    ∃ (ki kj : Nat) (hki : ki < (matchAgainst o l).1.length)
      (hkj : kj < (matchAgainst o l).1.length),
      ki < kj ∧
      ((matchAgainst o l).1.get ⟨ki, hki⟩).makerId = (l.get ⟨i, hi⟩).id ∧
      ((matchAgainst o l).1.get ⟨kj, hkj⟩).makerId = (l.get ⟨j, hj⟩).id := by
  have hij : i < j := by
    rcases Nat.lt_trichotomy i j with h | h | h
    · exact h
    · exfalso
      subst h
      exact lt_irrefl _ htime
    · exfalso
      rcases hord with hask | hbid
      · have hp := List.pairwise_iff_get.mp hask ⟨j, hj⟩ ⟨i, hi⟩ h
        rcases hp with hlt | hpt
        · rw [hprice] at hlt
          exact lt_irrefl _ hlt
        · omega
      · have hp := List.pairwise_iff_get.mp hbid ⟨j, hj⟩ ⟨i, hi⟩ h
        rcases hp with hlt | hpt
        · rw [hprice] at hlt
          exact lt_irrefl _ hlt
        · omega
  obtain ⟨t, ht, hmk⟩ := hmatched
  obtain ⟨⟨k, hk⟩, hteq⟩ := List.mem_iff_get.mp ht
  have hkl : k < l.length := lt_of_lt_of_le hk (matchAgainst_len_le o l)
  have hmat := matchAgainst_maker_at o l k hk
  rw [hteq] at hmat
  have hkid : (l.get ⟨k, hkl⟩).id = (l.get ⟨j, hj⟩).id := by rw [← hmat, hmk]
  have hlnd : l.Nodup := List.Nodup.of_map _ hnd
  have hkeq : l.get ⟨k, hkl⟩ = l.get ⟨j, hj⟩ :=
    List.inj_on_of_nodup_map hnd (List.get_mem l _ _) (List.get_mem l _ _) hkid
  have hkj2 : k = j := by
    have h2 := (List.Nodup.get_inj_iff hlnd).mp hkeq
    simpa using congrArg Fin.val h2
  subst hkj2
  refine ⟨i, k, lt_trans hij hk, hk, hij, ?_, ?_⟩
  · exact matchAgainst_maker_at o l i (lt_trans hij hk)
  · exact matchAgainst_maker_at o l k hk

theorem c4_price_time_priority_witness :
    ([(⟨1, "X", Side.sell, 100, 10, 10, 5⟩ : Order),
      ⟨2, "X", Side.sell, 100, 10, 10, 9⟩].Pairwise askPriority) ∧
    (∃ (ki kj : Nat)
      (hki : ki < (matchAgainst (⟨3, "X", Side.buy, 100, 20, 20, 10⟩ : Order)
        [⟨1, "X", Side.sell, 100, 10, 10, 5⟩, ⟨2, "X", Side.sell, 100, 10, 10, 9⟩]).1.length)
      (hkj : kj < (matchAgainst (⟨3, "X", Side.buy, 100, 20, 20, 10⟩ : Order)
        [⟨1, "X", Side.sell, 100, 10, 10, 5⟩, ⟨2, "X", Side.sell, 100, 10, 10, 9⟩]).1.length),
      ki < kj ∧
      ((matchAgainst (⟨3, "X", Side.buy, 100, 20, 20, 10⟩ : Order)
        [⟨1, "X", Side.sell, 100, 10, 10, 5⟩,
         ⟨2, "X", Side.sell, 100, 10, 10, 9⟩]).1.get ⟨ki, hki⟩).makerId
        = ([(⟨1, "X", Side.sell, 100, 10, 10, 5⟩ : Order),
            ⟨2, "X", Side.sell, 100, 10, 10, 9⟩].get ⟨0, by decide⟩).id ∧
      ((matchAgainst (⟨3, "X", Side.buy, 100, 20, 20, 10⟩ : Order)
        [⟨1, "X", Side.sell, 100, 10, 10, 5⟩,
         ⟨2, "X", Side.sell, 100, 10, 10, 9⟩]).1.get ⟨kj, hkj⟩).makerId
        = ([(⟨1, "X", Side.sell, 100, 10, 10, 5⟩ : Order),
            ⟨2, "X", Side.sell, 100, 10, 10, 9⟩].get ⟨1, by decide⟩).id) := by
  refine ⟨by decide, ?_⟩
  exact c4_price_time_priority (⟨3, "X", Side.buy, 100, 20, 20, 10⟩ : Order)
    [⟨1, "X", Side.sell, 100, 10, 10, 5⟩, ⟨2, "X", Side.sell, 100, 10, 10, 9⟩]
    (Or.inl (by decide)) (by decide) 0 1 (by decide) (by decide) (by decide) (by decide)
    (by decide)

theorem drain_mk {α : Type} (cap : Nat) (l : List α) :
    drain (⟨cap, l⟩ : BoundedQueue α) = l := by
  induction l with
  | nil =>
    rw [drain]
    rfl
  | cons x xs ih =>
    rw [drain]
    simp only [BoundedQueue.dequeue]
    rw [ih]

theorem enqueueAll_mk {α : Type} (cap : Nat) (vs : List α) (init : List α)
    (h : init.length + vs.length ≤ cap) :
    enqueueAll (⟨cap, init⟩ : BoundedQueue α) vs = some ⟨cap, init ++ vs⟩ := by
  induction vs generalizing init with
  | nil => simp [enqueueAll]
  | cons x xs ih =>
    simp only [enqueueAll, BoundedQueue.enqueue]
    rw [if_pos (by simp only [List.length_cons] at h; show init.length < cap; omega)]
    show enqueueAll (⟨cap, init ++ [x]⟩ : BoundedQueue α) xs = some ⟨cap, init ++ x :: xs⟩
    rw [ih (init ++ [x])
      (by simp only [List.length_append, List.length_cons, List.length_nil] at h ⊢; omega)]
    simp

/-- C6: the bounded queue is FIFO.  Dequeue on an empty queue reports
Empty (none), and enqueuing v1..vn into a fresh queue of sufficient
capacity and then dequeuing until empty returns exactly v1..vn in
submission order. -/
theorem c6_queue_fifo (cap : Nat) (vs : List Nat) (h : vs.length ≤ cap) :
    (∀ q : BoundedQueue Nat, q.items = [] → q.dequeue = none) ∧
    ∃ q : BoundedQueue Nat,
      enqueueAll (⟨cap, []⟩ : BoundedQueue Nat) vs = some q ∧ drain q = vs := by
  constructor
  · intro q hq
    cases q with
    | mk c items =>
      simp only at hq
      rw [hq]
      rfl
  · refine ⟨⟨cap, vs⟩, ?_, drain_mk cap vs⟩
    have := enqueueAll_mk cap vs [] (by simpa using h)
    simpa using this

theorem c6_queue_fifo_witness :
    ([10, 20, 30] : List Nat).length ≤ 5 ∧
    ((∀ q : BoundedQueue Nat, q.items = [] → q.dequeue = none) ∧
     ∃ q : BoundedQueue Nat,
       enqueueAll (⟨5, []⟩ : BoundedQueue Nat) [10, 20, 30] = some q ∧
       drain q = [10, 20, 30]) :=
  ⟨by decide, c6_queue_fifo 5 [10, 20, 30] (by decide)⟩

/-- C7 counterexample: with the engine Running but the bounded ingress
queue at capacity, submitting a valid order does not succeed, it fails
with QueueFull, so "when the state is Running it enqueues the order and
succeeds" is false as stated. -/
theorem c7_submit_order_counterexample :
    (⟨EngineState.running, ⟨0, []⟩, []⟩ : Engine).state = EngineState.running ∧
    valid_order (⟨1, "X", Side.buy, 100, 1, 1, 1⟩ : Order) = true ∧
    submit_order (⟨EngineState.running, ⟨0, []⟩, []⟩ : Engine)
      (⟨1, "X", Side.buy, 100, 1, 1, 1⟩ : Order) = Except.error EngineError.QueueFull :=
  ⟨rfl, rfl, rfl⟩

/-- C7 (amended): `submit_order` fails with EngineNotRunning whenever the
lifecycle state is not Running; when Running, an order failing validation
is rejected synchronously with InvalidOrder and never enqueued; a valid
order is enqueued to the ingress queue and succeeds provided the queue is
below capacity, and fails with QueueFull otherwise. -/
theorem c7_submit_order_amended (e : Engine) (o : Order) :
    (e.state ≠ EngineState.running →
      submit_order e o = Except.error EngineError.EngineNotRunning) ∧
    (e.state = EngineState.running → valid_order o = false →
      submit_order e o = Except.error EngineError.InvalidOrder) ∧
    (e.state = EngineState.running → valid_order o = true →
      e.ingress.items.length < e.ingress.capacity →
      submit_order e o =
        Except.ok ⟨e.state, ⟨e.ingress.capacity, e.ingress.items ++ [o]⟩, e.books⟩) ∧
    (e.state = EngineState.running → valid_order o = true →
      ¬ e.ingress.items.length < e.ingress.capacity →
      submit_order e o = Except.error EngineError.QueueFull) := by
  refine ⟨?_, ?_, ?_, ?_⟩
  · intro h
    unfold submit_order
    rw [if_pos h]
  · intro hs hv
    unfold submit_order
    rw [if_neg (by simp [hs]), if_pos hv]
  · intro hs hv hlen
    unfold submit_order
    rw [if_neg (by simp [hs]), if_neg (by simp [hv])]
    simp only [BoundedQueue.enqueue]
    rw [if_pos hlen]
  · intro hs hv hlen
    unfold submit_order
    rw [if_neg (by simp [hs]), if_neg (by simp [hv])]
    simp only [BoundedQueue.enqueue]
    rw [if_neg hlen]

theorem c7_submit_order_amended_witness :
    ((⟨EngineState.stopped, ⟨2, []⟩, []⟩ : Engine).state ≠ EngineState.running ∧
     submit_order (⟨EngineState.stopped, ⟨2, []⟩, []⟩ : Engine)
       (⟨1, "X", Side.buy, 100, 5, 5, 1⟩ : Order)
       = Except.error EngineError.EngineNotRunning) ∧
    (valid_order (⟨2, "X", Side.buy, 100, 0, 0, 1⟩ : Order) = false ∧
     submit_order (⟨EngineState.running, ⟨2, []⟩, []⟩ : Engine)
       (⟨2, "X", Side.buy, 100, 0, 0, 1⟩ : Order)
       = Except.error EngineError.InvalidOrder) ∧
    (valid_order (⟨1, "X", Side.buy, 100, 5, 5, 1⟩ : Order) = true ∧
     submit_order (⟨EngineState.running, ⟨2, []⟩, []⟩ : Engine)
       (⟨1, "X", Side.buy, 100, 5, 5, 1⟩ : Order)
       = Except.ok ⟨EngineState.running, ⟨2, [⟨1, "X", Side.buy, 100, 5, 5, 1⟩]⟩, []⟩) ∧
    submit_order (⟨EngineState.running, ⟨0, []⟩, []⟩ : Engine)
      (⟨1, "X", Side.buy, 100, 5, 5, 1⟩ : Order) = Except.error EngineError.QueueFull := by
  refine ⟨⟨by decide, ?_⟩, ⟨rfl, ?_⟩, ⟨rfl, ?_⟩, ?_⟩
  · exact (c7_submit_order_amended (⟨EngineState.stopped, ⟨2, []⟩, []⟩ : Engine)
      (⟨1, "X", Side.buy, 100, 5, 5, 1⟩ : Order)).1 (by decide)
  · exact (c7_submit_order_amended (⟨EngineState.running, ⟨2, []⟩, []⟩ : Engine)
      (⟨2, "X", Side.buy, 100, 0, 0, 1⟩ : Order)).2.1 rfl rfl
  · exact (c7_submit_order_amended (⟨EngineState.running, ⟨2, []⟩, []⟩ : Engine)
      (⟨1, "X", Side.buy, 100, 5, 5, 1⟩ : Order)).2.2.1 rfl rfl (by decide)
  · exact (c7_submit_order_amended (⟨EngineState.running, ⟨0, []⟩, []⟩ : Engine)
      (⟨1, "X", Side.buy, 100, 5, 5, 1⟩ : Order)).2.2.2 rfl rfl (by decide)

theorem agg_head_price (o : Order) (rest : List Order) :
    ∃ q lvls, aggregateLevels (o :: rest) = (o.price, q) :: lvls := by
  cases hagg : aggregateLevels rest with
  | nil => exact ⟨o.remaining, [], by simp only [aggregateLevels, hagg]⟩
  | cons pq lvls =>
    obtain ⟨p, q0⟩ := pq
    by_cases hp : o.price = p
    · refine ⟨o.remaining + q0, lvls, ?_⟩
      simp only [aggregateLevels, hagg, if_pos hp]
      rw [hp]
    · refine ⟨o.remaining, (p, q0) :: lvls, ?_⟩
      simp only [aggregateLevels, hagg, if_neg hp]

theorem agg_mem_price (l : List Order) :
    ∀ pq ∈ aggregateLevels l, ∃ x ∈ l, x.price = pq.1 := by
  induction l with
  | nil => simp [aggregateLevels]
  | cons o rest ih =>
    intro pq hpq
    simp only [aggregateLevels] at hpq
    cases hagg : aggregateLevels rest with
    | nil =>
      rw [hagg] at hpq
      simp only [List.mem_singleton] at hpq
      exact ⟨o, List.mem_cons_self _ _, by rw [hpq]⟩
    | cons pq0 lvls =>
      obtain ⟨p, q0⟩ := pq0
      rw [hagg] at hpq
      have hpq2 : pq ∈ (if o.price = p then (p, o.remaining + q0) :: lvls
          else (o.price, o.remaining) :: (p, q0) :: lvls) := hpq
      by_cases hp : o.price = p
      · rw [if_pos hp] at hpq2
        rcases List.mem_cons.mp hpq2 with h | h
        · exact ⟨o, List.mem_cons_self _ _, by rw [h, hp]⟩
        · obtain ⟨x, hx, hxp⟩ := ih pq (hagg ▸ List.mem_cons_of_mem _ h)
          exact ⟨x, List.mem_cons_of_mem _ hx, hxp⟩
      · rw [if_neg hp] at hpq2
        rcases List.mem_cons.mp hpq2 with h | h
        · exact ⟨o, List.mem_cons_self _ _, by rw [h]⟩
        · obtain ⟨x, hx, hxp⟩ := ih pq (hagg ▸ h)
          exact ⟨x, List.mem_cons_of_mem _ hx, hxp⟩

theorem levelQty_zero (p : Int) (l : List Order) (h : ∀ x ∈ l, x.price ≠ p) :
    levelQty p l = 0 := by
  induction l with
  | nil => rfl
  | cons x rest ih =>
    simp only [levelQty]
    rw [if_neg (h x (List.mem_cons_self _ _)), ih (fun y hy => h y (List.mem_cons_of_mem _ hy))]

theorem agg_head_eq (rest : List Order) (p : Int) (q0 : Nat) (lvls : List (Int × Nat))
    (hagg : aggregateLevels rest = (p, q0) :: lvls) :
    ∃ r2 rest2, rest = r2 :: rest2 ∧ r2.price = p := by
  cases rest with
  | nil => simp [aggregateLevels] at hagg
  | cons r2 rest2 =>
    obtain ⟨q3, lvls3, heq⟩ := agg_head_price r2 rest2
    rw [heq] at hagg
    simp only [List.cons.injEq, Prod.mk.injEq] at hagg
    exact ⟨r2, rest2, rfl, hagg.1.1⟩

theorem agg_desc (l : List Order) (hl : l.Pairwise (fun a b => b.price ≤ a.price)) :
    (aggregateLevels l).Pairwise (fun x y => y.1 < x.1) := by
  induction l with
  | nil => simp [aggregateLevels]
  | cons o rest ih =>
    rw [List.pairwise_cons] at hl
    have hr := ih hl.2
    cases hagg : aggregateLevels rest with
    | nil =>
      have heq2 : aggregateLevels (o :: rest) = [(o.price, o.remaining)] := by
        simp only [aggregateLevels, hagg]
      rw [heq2]
      simp
    | cons pq0 lvls =>
      obtain ⟨p, q0⟩ := pq0
      rw [hagg] at hr
      obtain ⟨r2, rest2, hrest, hr2p⟩ := agg_head_eq rest p q0 lvls hagg
      have hop : p ≤ o.price := by
        rw [← hr2p]
        exact hl.1 r2 (by rw [hrest]; exact List.mem_cons_self _ _)
      by_cases hp : o.price = p
      · have heq2 : aggregateLevels (o :: rest) = (p, o.remaining + q0) :: lvls := by
          simp only [aggregateLevels, hagg, if_pos hp]
        rw [heq2]
        rw [List.pairwise_cons] at hr ⊢
        exact hr
      · have heq2 : aggregateLevels (o :: rest)
            = (o.price, o.remaining) :: (p, q0) :: lvls := by
          simp only [aggregateLevels, hagg, if_neg hp]
        rw [heq2]
        rw [List.pairwise_cons]
        refine ⟨?_, hr⟩
        intro y hy
        have holt : p < o.price := lt_of_le_of_ne hop (fun h => hp h.symm)
        rcases List.mem_cons.mp hy with h | h
        · rw [h]; exact holt
        · exact lt_trans (List.rel_of_pairwise_cons hr h) holt

theorem agg_asc (l : List Order) (hl : l.Pairwise (fun a b => a.price ≤ b.price)) :
    (aggregateLevels l).Pairwise (fun x y => x.1 < y.1) := by
  induction l with
  | nil => simp [aggregateLevels]
  | cons o rest ih =>
    rw [List.pairwise_cons] at hl
    have hr := ih hl.2
    cases hagg : aggregateLevels rest with
    | nil =>
      have heq2 : aggregateLevels (o :: rest) = [(o.price, o.remaining)] := by
        simp only [aggregateLevels, hagg]
      rw [heq2]
      simp
    | cons pq0 lvls =>
      obtain ⟨p, q0⟩ := pq0
      rw [hagg] at hr
      obtain ⟨r2, rest2, hrest, hr2p⟩ := agg_head_eq rest p q0 lvls hagg
      have hop : o.price ≤ p := by
        rw [← hr2p]
        exact hl.1 r2 (by rw [hrest]; exact List.mem_cons_self _ _)
      by_cases hp : o.price = p
      · have heq2 : aggregateLevels (o :: rest) = (p, o.remaining + q0) :: lvls := by
          simp only [aggregateLevels, hagg, if_pos hp]
        rw [heq2]
        rw [List.pairwise_cons] at hr ⊢
        exact hr
      · have heq2 : aggregateLevels (o :: rest)
            = (o.price, o.remaining) :: (p, q0) :: lvls := by
          simp only [aggregateLevels, hagg, if_neg hp]
        rw [heq2]
        rw [List.pairwise_cons]
        refine ⟨?_, hr⟩
        intro y hy
        have holt : o.price < p := lt_of_le_of_ne hop hp
        rcases List.mem_cons.mp hy with h | h
        · rw [h]; exact holt
        · exact lt_trans holt (List.rel_of_pairwise_cons hr h)

theorem agg_qty_desc (l : List Order) (hl : l.Pairwise (fun a b => b.price ≤ a.price)) :
    ∀ pq ∈ aggregateLevels l, pq.2 = levelQty pq.1 l := by
  induction l with
  | nil => simp [aggregateLevels]
  | cons o rest ih =>
    rw [List.pairwise_cons] at hl
    have hr := ih hl.2
    have hmono := agg_desc rest hl.2
    intro pq hpq
    cases hagg : aggregateLevels rest with
    | nil =>
      have heq2 : aggregateLevels (o :: rest) = [(o.price, o.remaining)] := by
        simp only [aggregateLevels, hagg]
      rw [heq2] at hpq
      simp only [List.mem_singleton] at hpq
      cases rest with
      | cons r2 rest2 =>
        obtain ⟨q3, lvls3, heq⟩ := agg_head_price r2 rest2
        rw [heq] at hagg
        exact absurd hagg (List.cons_ne_nil _ _)
      | nil =>
        rw [hpq]
        simp [levelQty]
    | cons pq0 lvls =>
      obtain ⟨p, q0⟩ := pq0
      rw [hagg] at hr hmono
      obtain ⟨r2, rest2, hrest, hr2p⟩ := agg_head_eq rest p q0 lvls hagg
      have hop : p ≤ o.price := by
        rw [← hr2p]
        exact hl.1 r2 (by rw [hrest]; exact List.mem_cons_self _ _)
      by_cases hp : o.price = p
      · have heq2 : aggregateLevels (o :: rest) = (p, o.remaining + q0) :: lvls := by
          simp only [aggregateLevels, hagg, if_pos hp]
        rw [heq2] at hpq
        rcases List.mem_cons.mp hpq with h | h
        · have hq0 := hr (p, q0) (List.mem_cons_self _ _)
          simp only at hq0
          rw [h]
          simp only [levelQty, if_pos hp]
          omega
        · have heq3 := hr pq (List.mem_cons_of_mem _ h)
          have hlt : pq.1 < p := List.rel_of_pairwise_cons hmono h
          have hne : o.price ≠ pq.1 := by rw [hp]; exact ne_of_gt hlt
          simp only [levelQty, if_neg hne]
          omega
      · have heq2 : aggregateLevels (o :: rest)
            = (o.price, o.remaining) :: (p, q0) :: lvls := by
          simp only [aggregateLevels, hagg, if_neg hp]
        rw [heq2] at hpq
        have hlt : p < o.price := lt_of_le_of_ne hop (fun h => hp h.symm)
        rcases List.mem_cons.mp hpq with h | h
        · rw [h]
          simp only [levelQty, if_pos rfl]
          have hz : levelQty o.price rest = 0 := by
            refine levelQty_zero _ _ ?_
            intro x hx
            rw [hrest] at hx hl
            rcases List.mem_cons.mp hx with h2 | h2
            · rw [h2, hr2p]; exact ne_of_lt hlt
            · have hx2 : x.price ≤ r2.price := List.rel_of_pairwise_cons hl.2 h2
              rw [hr2p] at hx2
              exact ne_of_lt (lt_of_le_of_lt hx2 hlt)
          rw [hz]
          simp
        · have heq3 := hr pq h
          have hlt2 : pq.1 < o.price := by
            rcases List.mem_cons.mp h with h2 | h2
            · rw [h2]; exact hlt
            · exact lt_trans (List.rel_of_pairwise_cons hmono h2) hlt
          simp only [levelQty, if_neg (ne_of_gt hlt2)]
          omega

theorem agg_qty_asc (l : List Order) (hl : l.Pairwise (fun a b => a.price ≤ b.price)) :
    ∀ pq ∈ aggregateLevels l, pq.2 = levelQty pq.1 l := by
  induction l with
  | nil => simp [aggregateLevels]
  | cons o rest ih =>
    rw [List.pairwise_cons] at hl
    have hr := ih hl.2
    have hmono := agg_asc rest hl.2
    intro pq hpq
    cases hagg : aggregateLevels rest with
    | nil =>
      have heq2 : aggregateLevels (o :: rest) = [(o.price, o.remaining)] := by
        simp only [aggregateLevels, hagg]
      rw [heq2] at hpq
      simp only [List.mem_singleton] at hpq
      cases rest with
      | cons r2 rest2 =>
        obtain ⟨q3, lvls3, heq⟩ := agg_head_price r2 rest2
        rw [heq] at hagg
        exact absurd hagg (List.cons_ne_nil _ _)
      | nil =>
        rw [hpq]
        simp [levelQty]
    | cons pq0 lvls =>
      obtain ⟨p, q0⟩ := pq0
      rw [hagg] at hr hmono
      obtain ⟨r2, rest2, hrest, hr2p⟩ := agg_head_eq rest p q0 lvls hagg
      have hop : o.price ≤ p := by
        rw [← hr2p]
        exact hl.1 r2 (by rw [hrest]; exact List.mem_cons_self _ _)
      by_cases hp : o.price = p
      · have heq2 : aggregateLevels (o :: rest) = (p, o.remaining + q0) :: lvls := by
          simp only [aggregateLevels, hagg, if_pos hp]
        rw [heq2] at hpq
        rcases List.mem_cons.mp hpq with h | h
        · have hq0 := hr (p, q0) (List.mem_cons_self _ _)
          simp only at hq0
          rw [h]
          simp only [levelQty, if_pos hp]
          omega
        · have heq3 := hr pq (List.mem_cons_of_mem _ h)
          have hlt : p < pq.1 := List.rel_of_pairwise_cons hmono h
          have hne : o.price ≠ pq.1 := by rw [hp]; exact ne_of_lt hlt
          simp only [levelQty, if_neg hne]
          omega
      · have heq2 : aggregateLevels (o :: rest)
            = (o.price, o.remaining) :: (p, q0) :: lvls := by
          simp only [aggregateLevels, hagg, if_neg hp]
        rw [heq2] at hpq
        have hlt : o.price < p := lt_of_le_of_ne hop hp
        rcases List.mem_cons.mp hpq with h | h
        · rw [h]
          simp only [levelQty, if_pos rfl]
          have hz : levelQty o.price rest = 0 := by
            refine levelQty_zero _ _ ?_
            intro x hx
            rw [hrest] at hx hl
            rcases List.mem_cons.mp hx with h2 | h2
            · rw [h2, hr2p]; exact ne_of_gt hlt
            · have hx2 : r2.price ≤ x.price := List.rel_of_pairwise_cons hl.2 h2
              rw [hr2p] at hx2
              exact ne_of_gt (lt_of_lt_of_le hlt hx2)
          rw [hz]
          simp
        · have heq3 := hr pq h
          have hlt2 : o.price < pq.1 := by
            rcases List.mem_cons.mp h with h2 | h2
            · rw [h2]; exact hlt
            · exact lt_trans hlt (List.rel_of_pairwise_cons hmono h2)
          simp only [levelQty, if_neg (ne_of_lt hlt2)]
          omega

/-- C8: depth snapshots are idempotent, two calls with no intervening
mutation return identical results, and each result is, per side, at most
N aggregated (price level, total resting quantity) pairs ordered best
price first (bids descending, asks ascending), each pair carrying the
aggregate remaining quantity resting at that price. -/
theorem c8_depth_idempotent_and_sound (e : Engine) (sym : String) (n : Nat)
    (hbs : bidsOrdered (lookupBook e.books sym).bids)
    (has : asksOrdered (lookupBook e.books sym).asks) :
    get_market_depth e sym n = get_market_depth e sym n ∧
    (get_market_depth e sym n).1.length ≤ n ∧
    (get_market_depth e sym n).2.length ≤ n ∧
    (get_market_depth e sym n).1.Pairwise (fun x y => y.1 < x.1) ∧
    (get_market_depth e sym n).2.Pairwise (fun x y => x.1 < y.1) ∧
    (∀ pq ∈ (get_market_depth e sym n).1,
      pq.2 = levelQty pq.1 (lookupBook e.books sym).bids) ∧
    (∀ pq ∈ (get_market_depth e sym n).2,
      pq.2 = levelQty pq.1 (lookupBook e.books sym).asks) := by
  refine ⟨rfl, ?_, ?_, ?_, ?_, ?_, ?_⟩
  · show ((aggregateLevels (lookupBook e.books sym).bids).take n).length ≤ n
    rw [List.length_take]
    exact min_le_left _ _
  · show ((aggregateLevels (lookupBook e.books sym).asks).take n).length ≤ n
    rw [List.length_take]
    exact min_le_left _ _
  · exact List.Pairwise.sublist (List.take_sublist _ _) (agg_desc _ hbs)
  · exact List.Pairwise.sublist (List.take_sublist _ _) (agg_asc _ has)
  · intro pq hpq
    exact agg_qty_desc _ hbs pq (List.take_subset _ _ hpq)
  · intro pq hpq
    exact agg_qty_asc _ has pq (List.take_subset _ _ hpq)

theorem c8_depth_idempotent_and_sound_witness :
    bidsOrdered (lookupBook demoEngine.books "A").bids ∧
    asksOrdered (lookupBook demoEngine.books "A").asks ∧
    (get_market_depth demoEngine "A" 5 = get_market_depth demoEngine "A" 5 ∧
     (get_market_depth demoEngine "A" 5).1.length ≤ 5 ∧
     (get_market_depth demoEngine "A" 5).2.length ≤ 5 ∧
     (get_market_depth demoEngine "A" 5).1.Pairwise (fun x y => y.1 < x.1) ∧
     (get_market_depth demoEngine "A" 5).2.Pairwise (fun x y => x.1 < y.1) ∧
     (∀ pq ∈ (get_market_depth demoEngine "A" 5).1,
       pq.2 = levelQty pq.1 (lookupBook demoEngine.books "A").bids) ∧
     (∀ pq ∈ (get_market_depth demoEngine "A" 5).2,
       pq.2 = levelQty pq.1 (lookupBook demoEngine.books "A").asks)) :=
  ⟨by decide, by decide,
   c8_depth_idempotent_and_sound demoEngine "A" 5 (by decide) (by decide)⟩

/-- C10: submitting to an empty book a buy at reference price minus 0.50
(scaled: p - 50) and then a sell at reference price plus 0.50 (p + 50)
for the same symbol produces no trade; both orders rest in the book, and
a market-depth query for the symbol reports at least one bid level and at
least one ask level. -/
theorem c10_non_crossing_orders_rest (p : Int) :
    (processRouted [] [⟨10, "AAPL", Side.buy, p - 50, 500, 500, 1⟩,
        ⟨11, "AAPL", Side.sell, p + 50, 500, 500, 2⟩]).1 = [] ∧
    (⟨10, "AAPL", Side.buy, p - 50, 500, 500, 1⟩ : Order) ∈
      (lookupBook (processRouted [] [⟨10, "AAPL", Side.buy, p - 50, 500, 500, 1⟩,
        ⟨11, "AAPL", Side.sell, p + 50, 500, 500, 2⟩]).2 "AAPL").bids ∧
    (⟨11, "AAPL", Side.sell, p + 50, 500, 500, 2⟩ : Order) ∈
      (lookupBook (processRouted [] [⟨10, "AAPL", Side.buy, p - 50, 500, 500, 1⟩,
        ⟨11, "AAPL", Side.sell, p + 50, 500, 500, 2⟩]).2 "AAPL").asks ∧
    1 ≤ (get_market_depth ⟨EngineState.running, ⟨0, []⟩,
        (processRouted [] [⟨10, "AAPL", Side.buy, p - 50, 500, 500, 1⟩,
          ⟨11, "AAPL", Side.sell, p + 50, 500, 500, 2⟩]).2⟩ "AAPL" 5).1.length ∧
    1 ≤ (get_market_depth ⟨EngineState.running, ⟨0, []⟩,
        (processRouted [] [⟨10, "AAPL", Side.buy, p - 50, 500, 500, 1⟩,
          ⟨11, "AAPL", Side.sell, p + 50, 500, 500, 2⟩]).2⟩ "AAPL" 5).2.length := by
  have hm : marketable (⟨11, "AAPL", Side.sell, p + 50, 500, 500, 2⟩ : Order)
      (⟨10, "AAPL", Side.buy, p - 50, 500, 500, 1⟩ : Order) = false := by
    simp only [marketable]
    simp only [decide_eq_false_iff_not, not_le]
    omega
  refine ⟨?_, ?_, ?_, ?_, ?_⟩ <;>
    simp [processRouted, route, OrderBook.insert, matchAgainst, lookupBook, updateBook,
      emptyBook, insertBid, insertAsk, insertSide, get_market_depth, OrderBook.depth,
      aggregateLevels, hm]
